import Mathlib

/-!
Verification development for the metadata-extraction and package-identity
core of the go-pypi-mirror repository.

The Go code is shallowly embedded: strings are modelled at the level of
their character lists (Go byte indices into UTF-8 strings are only ever
taken at ASCII positions in this code, where the two coincide), pure Go
functions become Lean functions, fallible Go functions return Except, and
filesystem or archive input is passed in explicitly as data.

Embedded sources (package pkg, the revision the claims cite):
  pkg/metadata.go  normalize, parseMetadata, getMetadataFromArchive,
                   the wheel name heuristic of getMetadataFromWheel,
                   getMetadataFromJSON, getMetadata
  metadata/metadata.go  the variant wheel name heuristic of getFromWheel
  pkg/list.go      FixNames
  pkg/sort.go      SortByVersion, GroupBy
-/

namespace PyMirror

/-- The character class of the Go regular expression pattern used by
normalize, namely a dash, an underscore or a dot. -/
def isSep (c : Char) : Bool := c == '-' || c == '_' || c == '.'

/-- Replacement of every maximal run of separator characters by a single
dash, which is exactly what ReplaceAllLiteralString with the leftmost
longest pattern of one-or-more separators does in pkg/metadata.go line 66. -/
def collapseSeps : List Char → List Char
  | [] => []
  | [c] => if isSep c then ['-'] else [c]
  | c :: d :: cs =>
      if isSep c then
        if isSep d then collapseSeps (d :: cs)
        else '-' :: collapseSeps (d :: cs)
      else c :: collapseSeps (d :: cs)

/-- Go strings.ToLower applied rune by rune. Char.toLower implements the
ASCII case mapping, which covers every character this code manipulates. -/
def toLowerList (l : List Char) : List Char := l.map Char.toLower

/-- Embedding of normalize from pkg/metadata.go lines 65 to 67: collapse
runs of dash, underscore and dot to a single dash, then lower-case. -/
def normalize (name : String) : String := ⟨toLowerList (collapseSeps name.data)⟩

/-- The metadata record of pkg/metadata.go lines 52 to 59. Go zero values
give the empty string for fields a construction site leaves out. -/
structure Metadata where
  Name : String
  NormName : String
  Version : String
  Homepage : String
  Trusted : Bool
  Hash : String
deriving DecidableEq, Repr

/-- The error values of pkg/metadata.go lines 34 to 40, together with the
generic input-output failures that the Go code passes through unchanged. -/
inductive MetaError where
  | invalidMetadata (missingField : String)
  | invalidArchiveName
  | archiveMemberNotFound
  | metadataExtract
  | unknownExtension
  | decodeError
  | ioError
deriving DecidableEq, Repr

/-- Go strings.HasPrefix at the character level, written as a structural
recursion so that concrete inputs evaluate inside the kernel. -/
def startsWithL : List Char → List Char → Bool
  | _, [] => true
  | [], _ :: _ => false
  | x :: xs, y :: ys => x == y && startsWithL xs ys

/-- Go strings.HasPrefix on strings. -/
def strStartsWith (s lit : String) : Bool := startsWithL s.data lit.data

/-- Go strings.HasSuffix on strings, checked on the reversed characters. -/
def strEndsWith (s suf : String) : Bool :=
  startsWithL s.data.reverse suf.data.reverse

/-- Split on a one-character separator, the behaviour of Go strings.Split
and of the line splitting implied by the multi-line regex anchors. -/
def splitOnSep (c : Char) : List Char → List (List Char)
  | [] => [[]]
  | x :: xs =>
    if x = c then [] :: splitOnSep c xs
    else
      match splitOnSep c xs with
      | [] => [[x]]
      | h :: t => (x :: h) :: t

/-- Go strings.TrimSpace: whitespace removed from both ends. -/
def strTrim (s : String) : String :=
  ⟨((s.data.dropWhile Char.isWhitespace).reverse.dropWhile Char.isWhitespace).reverse⟩

/-- First line of the text starting with the given literal, returning the
rest of that line. This is FindStringSubmatch for the multi-line anchored
patterns of pkg/metadata.go lines 29 to 31, whose capture group is the
remainder of the matched line. -/
def findLineValue (lit : String) (s : String) : Option String :=
  (splitOnSep '\n' s.data).findSome? fun line =>
    if startsWithL line lit.data then some ⟨line.drop lit.data.length⟩ else none

/-- The alternation of the homepage pattern of pkg/metadata.go line 31
expanded into its finitely many literal line starts. -/
def homepageLits : List String :=
  ["Home-page: ", "Home-Page: ",
   "Project-URL: Homepage, ", "Project-URL: HomePage, ",
   "Project-URL: homepage, ", "Project-URL: homePage, ",
   "Project-URL: Home-page, ", "Project-URL: Home-Page, ",
   "Project-URL: home-page, ", "Project-URL: home-Page, "]

/-- First match of the homepage pattern of pkg/metadata.go line 31. -/
def findHomepage (s : String) : Option String :=
  (splitOnSep '\n' s.data).findSome? fun line =>
    homepageLits.findSome? fun lit =>
      if startsWithL line lit.data then some ⟨line.drop lit.data.length⟩ else none

/-- Embedding of parseMetadata from pkg/metadata.go lines 69 to 93. String
trim models strings.TrimSpace. The record is always marked trusted and the
hash field is left at its zero value. -/
def parseMetadata (s : String) : Except MetaError Metadata :=
  match findLineValue "Name: " s with
  | none => .error (.invalidMetadata "Name")
  | some rawName =>
    let name := strTrim rawName
    match findLineValue "Version: " s with
    | none => .error (.invalidMetadata "Version")
    | some rawVersion =>
      let version := strTrim rawVersion
      let homepage :=
        match findHomepage s with
        | none => ""
        | some rawHomepage => strTrim rawHomepage
      .ok { Name := name, NormName := normalize name, Version := version,
            Homepage := homepage, Trusted := true, Hash := "" }

/-- Go strings.TrimSuffix. -/
def stripTrail (s suf : String) : String :=
  if strEndsWith s suf then ⟨(s.data.reverse.drop suf.data.length).reverse⟩ else s

/-- Go strings.TrimPrefix. -/
def stripLead (s pre : String) : String :=
  if strStartsWith s pre then ⟨s.data.drop pre.data.length⟩ else s

/-- Go strings.LastIndex specialised to a one-character needle, returning
the position of the last occurrence, or none where Go returns -1. -/
def lastIndexOf (c : Char) : List Char → Option Nat
  | [] => none
  | x :: xs =>
    match lastIndexOf c xs with
    | some i => some (i + 1)
    | none => if x == c then some 0 else none

/-- Outcome of one archive member extraction, the contract of the
extractFunc functions of pkg/metadata.go: the member contents, the
distinguished member-not-found error, or any other input-output error. -/
inductive ExtractResult where
  | found (contents : String)
  | memberNotFound
  | ioError
deriving DecidableEq, Repr

/-- Embedding of getMetadataFromArchive from pkg/metadata.go lines 95 to
125. The first argument is the base name of the archive path, extraction
is passed in as a function from member names to results, and path.Join of
the two clean relative components is concatenation with a slash. -/
def getMetadataFromArchive (filename : String) (ext : String)
    (fn : String → ExtractResult) (member : String) : Except MetaError Metadata :=
  if ¬ strEndsWith filename ext then .error .invalidArchiveName
  else
    let stem := stripTrail filename ext
    let memberName := if member = "" then "PKG-INFO" else member
    let metadataFile := stem ++ "/" ++ memberName
    match fn metadataFile with
    | .found contents => parseMetadata contents
    | .ioError => .error .ioError
    | .memberNotFound =>
      match lastIndexOf '-' stem.data with
      | none => .error .metadataExtract
      | some idx =>
        let name : String := ⟨stem.data.take idx⟩
        .ok { Name := name, NormName := normalize name,
              Version := ⟨stem.data.drop (idx + 1)⟩,
              Homepage := "", Trusted := true, Hash := "" }

/-- Path component of a parsed URL. Modelled from the behaviour of the Go
net/url parser on the URL shapes this heuristic receives: the fragment and
query are cut off, and for an absolute URL the path is everything from the
first slash after the scheme-and-host part; a string without a scheme
separator is taken as a bare path. Parse errors, which Go reserves for
control characters and malformed escapes, are outside the model. -/
def afterSchemeSep : List Char → Option (List Char)
  | ':' :: '/' :: '/' :: rest => some rest
  | _ :: rest => afterSchemeSep rest
  | [] => none

/-- Path component of the parsed URL, continuing the model above: cut the
fragment and the query, then take everything from the first slash after
the scheme-and-host part; without a scheme the whole rest is the path. -/
def urlPath (u : String) : String :=
  let base := (u.data.takeWhile fun c => c ≠ '#').takeWhile fun c => c ≠ '?'
  match afterSchemeSep base with
  | none => ⟨base⟩
  | some rest => ⟨rest.dropWhile fun c => c ≠ '/'⟩

/-- Embedding of the name trust heuristic of getMetadataFromWheel,
pkg/metadata.go lines 217 to 232, applied to a parsed metadata record:
when the wheel file name does not start with the parsed name, the record
is marked untrusted and a candidate name is computed from the homepage
path, here with strings.TrimSuffix as in that revision. -/
def fixWheelName (whlName : String) (meta : Metadata) : Metadata :=
  if strStartsWith whlName meta.Name then meta
  else
    let m := { meta with Trusted := false }
    let upath := urlPath m.Homepage
    if upath.data.length > 0 && strStartsWith upath "/" then
      let p := stripTrail upath "/"
      if p.data.length > 0 then
        match lastIndexOf '/' p.data with
        | some idx =>
          if strStartsWith whlName ⟨p.data.take idx⟩ then
            { m with Name := ⟨p.data.take idx⟩ }
          else m
        | none => m
      else m
    else m

/-- Embedding of the same heuristic as written in getFromWheel,
metadata/metadata.go lines 217 to 232, whose only difference is
strings.TrimPrefix in place of strings.TrimSuffix on the path. -/
def getFromWheelFix (whlName : String) (meta : Metadata) : Metadata :=
  if strStartsWith whlName meta.Name then meta
  else
    let m := { meta with Trusted := false }
    let upath := urlPath m.Homepage
    if upath.data.length > 0 && strStartsWith upath "/" then
      let p := stripLead upath "/"
      if p.data.length > 0 then
        match lastIndexOf '/' p.data with
        | some idx =>
          if strStartsWith whlName ⟨p.data.take idx⟩ then
            { m with Name := ⟨p.data.take idx⟩ }
          else m
        | none => m
      else m
    else m

/-- State of the sidecar cache file next to an artifact, abstracting the
outcomes of os.Open and of the JSON decoder in getMetadataFromJSON:
the file does not exist, it cannot be opened for another reason, it opens
but does not decode, or it decodes to a metadata record. -/
inductive SidecarState where
  | absent
  | openError
  | decodeFailure
  | content (m : Metadata)
deriving DecidableEq, Repr

/-- Embedding of getMetadataFromJSON from pkg/metadata.go lines 240 to
257: a missing file is no cache, any other open or decode failure is an
error, a decoded record with an empty name is discarded as no cache. -/
def getMetadataFromJSON (sidecar : SidecarState) : Except MetaError (Option Metadata) :=
  match sidecar with
  | .absent => .ok none
  | .openError => .error .ioError
  | .decodeFailure => .error .decodeError
  | .content m => if m.Name = "" then .ok none else .ok (some m)

/-- The four archive kinds of the getters table of pkg/metadata.go lines
45 to 50. -/
inductive ArchKind where
  | tarBz2
  | tarGz
  | wheel
  | zip
deriving DecidableEq, Repr

/-- Extension dispatch of getMetadata, pkg/metadata.go lines 264 to 270.
The Go map iteration order is unspecified, but no path carries two of the
four known extensions at once, so the selected getter is deterministic. -/
def findGetter (path : String) : Option ArchKind :=
  if strEndsWith path ".tar.bz2" then some .tarBz2
  else if strEndsWith path ".tar.gz" then some .tarGz
  else if strEndsWith path ".whl" then some .wheel
  else if strEndsWith path ".zip" then some .zip
  else none

/-- Embedding of getMetadata from pkg/metadata.go lines 259 to 289. The
cached record is returned only when getMetadataFromJSON yields one, and in
every other case, including an error from getMetadataFromJSON, control
falls through to extension dispatch, extraction and hashing: the Go code
tests err == nil and meta != nil and never returns the sidecar error.
Extraction per kind and the whole-file hash are passed in as data. -/
def getMetadata (sidecar : SidecarState) (path : String)
    (runGetter : ArchKind → Except MetaError Metadata)
    (hashResult : Except MetaError String) : Except MetaError Metadata :=
  match getMetadataFromJSON sidecar with
  | .ok (some m) => .ok m
  | _ =>
    match findGetter path with
    | none => .error .unknownExtension
    | some kind =>
      match runGetter kind with
      | .error e => .error e
      | .ok m =>
        match hashResult with
        | .error e => .error e
        | .ok h => .ok { m with Hash := h }

/-- Embedding of FixNames from pkg/list.go lines 48 to 61. The Go code
partitions the slice of pointers by the trusted flag, and when the trusted
part is not empty it writes the name of its first element through every
untrusted pointer. The in-place pointer writes are modelled as a map over
the list, which leaves order and trusted elements untouched. -/
def fixNames (pkgs : List Metadata) : List Metadata :=
  match (pkgs.filter fun p => p.Trusted).head? with
  | none => pkgs
  | some t => pkgs.map fun p => if p.Trusted then p else { p with Name := t.Name }

/-- One numeric segment of a version string: a non-empty run of digits.
Modelled from the hashicorp go-version library used by SortByVersion. -/
def parseSeg (l : List Char) : Option Nat :=
  if l ≠ [] ∧ l.all Char.isDigit then
    some (l.foldl (fun n c => n * 10 + (c.toNat - 48)) 0)
  else none

/-- Structured parse of a version string, modelled from the go-version
library for the plain dotted numeric versions this repository compares:
the string parses exactly when every dot-separated part is a non-empty
digit run, and yields the list of numeric segments. Strings with any other
shape are the ones version.NewVersion rejects with an error. -/
def parseVersionSegs (s : String) : Option (List Nat) :=
  (splitOnSep '.' s.data).mapM parseSeg

/-- All segments zero, the padding test of the go-version comparison. -/
def allZero : List Nat → Bool
  | [] => true
  | a :: as => a == 0 && allZero as

/-- Segment comparison of the go-version library: compare position by
position numerically, with the shorter operand padded with zeros. -/
def compareSegs : List Nat → List Nat → Ordering
  | [], bs => if allZero bs then .eq else .lt
  | a :: as, [] => if allZero (a :: as) then .eq else .gt
  | a :: as, b :: bs =>
    if a < b then .lt else if b < a then .gt else compareSegs as bs

/-- Lexicographic strict order on character lists, the Go byte-wise order
on strings (code-point order and UTF-8 byte order agree). -/
def ltChars : List Char → List Char → Bool
  | [], [] => false
  | [], _ :: _ => true
  | _ :: _, [] => false
  | a :: as, b :: bs =>
    if a.toNat < b.toNat then true
    else if b.toNat < a.toNat then false
    else ltChars as bs

/-- The Go comparison operator on strings. -/
def strLt (a b : String) : Bool := ltChars a.data b.data

/-- The comparison closure of SortByVersion, pkg/sort.go lines 40 to 55:
parse both versions, compare them structurally when both parse, and fall
back to the plain string order of the raw text when either fails; the desc
flag flips the direction. -/
def versionLess (desc : Bool) (v1 v2 : String) : Bool :=
  match parseVersionSegs v1, parseVersionSegs v2 with
  | some s1, some s2 =>
    if desc then compareSegs s1 s2 == .gt else compareSegs s1 s2 == .lt
  | _, _ =>
    if desc then strLt v2 v1 else strLt v1 v2

/-- Embedding of SortByVersion, pkg/sort.go lines 39 to 57. Go sort.Sort
reorders the slice into some permutation admissible for the comparison;
it is modelled by insertion sort over the complement of the strict
comparison, which produces such a permutation. -/
def sortByVersion (pkgs : List Metadata) (desc : Bool) : List Metadata :=
  pkgs.insertionSort fun p q => ¬ versionLess desc q.Version p.Version

/-- The run-length-encoding loop of GroupBy, pkg/sort.go lines 101 to
113, translated with its loop state: the key of the current run and the
members of the current run collected so far, in reverse (the Go loop
keeps the start index of the run instead; the slice pkgs[first:i] is the
reversed accumulator). -/
def groupRunsAux {α κ : Type} [DecidableEq κ] (key : α → κ) (k : κ) (run : List α) :
    List α → List (κ × List α)
  | [] => [(k, run.reverse)]
  | y :: ys =>
    if key y = k then groupRunsAux key k (y :: run) ys
    else (k, run.reverse) :: groupRunsAux key (key y) [y] ys

/-- Groups of consecutive equal keys: the loop above started at the first
element, and no groups for an empty input. -/
def groupRuns {α κ : Type} [DecidableEq κ] (key : α → κ) : List α → List (κ × List α)
  | [] => []
  | x :: xs => groupRunsAux key (key x) [x] xs

/-- Embedding of GroupBy, pkg/sort.go lines 95 to 114: an empty input
yields no groups, otherwise the input is sorted ascending by the supplied
sort function and run-length-encoded into groups of equal keys. -/
def GroupBy {α κ : Type} [DecidableEq κ] (pkgs : List α)
    (sortf : List α → List α) (key : α → κ) : List (κ × List α) :=
  if pkgs.isEmpty then [] else groupRuns key (sortf pkgs)

theorem char_eq_of_toNat_eq {a b : Char} (h : a.toNat = b.toNat) : a = b :=
  Char.eq_of_val_eq (UInt32.eq_of_toBitVec_eq (BitVec.eq_of_toNat_eq h))

theorem toLower_toNat_of_upper {c : Char} (h : 65 ≤ c.toNat ∧ c.toNat ≤ 90) :
    (Char.toLower c).toNat = c.toNat + 32 := by
  have hv : (c.toNat + 32).isValidChar := Or.inl (by omega)
  simp only [Char.toLower]
  rw [if_pos (by omega)]
  rw [Char.ofNat, dif_pos hv]
  simp [Char.ofNatAux, Char.toNat, UInt32.toNat, BitVec.toNat_ofNatLt]

theorem toLower_of_not_upper {c : Char} (h : ¬(65 ≤ c.toNat ∧ c.toNat ≤ 90)) :
    Char.toLower c = c := by
  simp only [Char.toLower]
  rw [if_neg (by omega)]

theorem toLower_idem (c : Char) : Char.toLower (Char.toLower c) = Char.toLower c := by
  by_cases h : 65 ≤ c.toNat ∧ c.toNat ≤ 90
  · have h1 := toLower_toNat_of_upper h
    apply toLower_of_not_upper
    omega
  · rw [toLower_of_not_upper h]
    exact toLower_of_not_upper h

theorem isSep_iff (c : Char) : isSep c = true ↔ c.toNat = 45 ∨ c.toNat = 95 ∨ c.toNat = 46 := by
  constructor
  · intro h
    simp only [isSep, Bool.or_eq_true, beq_iff_eq] at h
    rcases h with (h | h) | h
    · subst h; left; rfl
    · subst h; right; left; rfl
    · subst h; right; right; rfl
  · intro h
    rcases h with h | h | h
    · have hc : c = '-' := char_eq_of_toNat_eq h
      rw [hc]; rfl
    · have hc : c = '_' := char_eq_of_toNat_eq h
      rw [hc]; rfl
    · have hc : c = '.' := char_eq_of_toNat_eq h
      rw [hc]; rfl

theorem isSep_toLower (c : Char) : isSep (Char.toLower c) = isSep c := by
  by_cases h : 65 ≤ c.toNat ∧ c.toNat ≤ 90
  · have h1 := toLower_toNat_of_upper h
    have hs1 : isSep (Char.toLower c) = false := by
      cases hb : isSep (Char.toLower c) with
      | false => rfl
      | true => have := (isSep_iff _).mp hb; omega
    have hs2 : isSep c = false := by
      cases hb : isSep c with
      | false => rfl
      | true => have := (isSep_iff _).mp hb; omega
    rw [hs1, hs2]
  · rw [toLower_of_not_upper h]

theorem collapseSeps_cons_not_sep (d : Char) (cs : List Char) (hd : isSep d = false) :
    ∃ t, collapseSeps (d :: cs) = d :: t := by
  cases cs with
  | nil => exact ⟨[], by simp [collapseSeps, hd]⟩
  | cons e es => exact ⟨collapseSeps (e :: es), by simp [collapseSeps, hd]⟩

theorem collapseSeps_sep_head : ∀ (d : Char) (cs : List Char), isSep d = true →
    ∃ t, collapseSeps (d :: cs) = '-' :: t
  | d, [], hd => ⟨[], by simp [collapseSeps, hd]⟩
  | d, e :: es, hd => by
    by_cases he : isSep e = true
    · obtain ⟨t, ht⟩ := collapseSeps_sep_head e es he
      exact ⟨t, by simp [collapseSeps, hd, he, ht]⟩
    · exact ⟨collapseSeps (e :: es), by simp [collapseSeps, hd, he]⟩

theorem collapseSeps_shape : ∀ l : List Char,
    (∀ c ∈ collapseSeps l, isSep c = true → c = '-') ∧
    List.Chain' (fun a b => ¬(isSep a = true ∧ isSep b = true)) (collapseSeps l)
  | [] => by simp [collapseSeps]
  | [c] => by
    by_cases h : isSep c = true
    · simp [collapseSeps, h]
    · constructor
      · intro x hx hsep
        simp [collapseSeps, h] at hx
        rw [hx] at hsep
        exact absurd hsep (by simp [h])
      · simp [collapseSeps, h]
  | c :: d :: cs => by
    have ih := collapseSeps_shape (d :: cs)
    by_cases hc : isSep c = true
    · by_cases hd : isSep d = true
      · simpa [collapseSeps, hc, hd] using ih
      · have hstep : collapseSeps (c :: d :: cs) = '-' :: collapseSeps (d :: cs) := by
          simp [collapseSeps, hc, hd]
        obtain ⟨t, ht⟩ := collapseSeps_cons_not_sep d cs (by simpa using hd)
        constructor
        · intro x hx hsep
          rw [hstep] at hx
          rcases List.mem_cons.mp hx with hx | hx
          · exact hx
          · exact ih.1 x hx hsep
        · rw [hstep, ht, List.chain'_cons]
          refine ⟨by simp [hd], ?_⟩
          rw [← ht]
          exact ih.2
    · have hstep : collapseSeps (c :: d :: cs) = c :: collapseSeps (d :: cs) := by
        simp [collapseSeps, hc]
      constructor
      · intro x hx hsep
        rw [hstep] at hx
        rcases List.mem_cons.mp hx with hx | hx
        · rw [hx] at hsep; exact absurd hsep (by simp [hc])
        · exact ih.1 x hx hsep
      · by_cases hd : isSep d = true
        · obtain ⟨t, ht⟩ := collapseSeps_sep_head d cs hd
          rw [hstep, ht, List.chain'_cons]
          refine ⟨by simp [hc], ?_⟩
          rw [← ht]
          exact ih.2
        · obtain ⟨t, ht⟩ := collapseSeps_cons_not_sep d cs (by simpa using hd)
          rw [hstep, ht, List.chain'_cons]
          refine ⟨by simp [hc], ?_⟩
          rw [← ht]
          exact ih.2

theorem collapseSeps_fixed : ∀ l : List Char,
    (∀ c ∈ l, isSep c = true → c = '-') →
    List.Chain' (fun a b => ¬(isSep a = true ∧ isSep b = true)) l →
    collapseSeps l = l
  | [], _, _ => rfl
  | [c], hm, _ => by
    by_cases h : isSep c = true
    · have hc := hm c (by simp) h
      simp [collapseSeps, h, hc]
    · simp [collapseSeps, h]
  | c :: d :: cs, hm, hch => by
    rw [List.chain'_cons] at hch
    by_cases hc : isSep c = true
    · have hd : isSep d = false := by
        cases hb : isSep d with
        | false => rfl
        | true => exact absurd ⟨hc, hb⟩ hch.1
      have hc2 := hm c (by simp) hc
      have hstep : collapseSeps (c :: d :: cs) = '-' :: collapseSeps (d :: cs) := by
        simp [collapseSeps, hc, hd]
      rw [hstep, collapseSeps_fixed (d :: cs) (fun x hx hs => hm x (by simp [hx]) hs) hch.2,
        hc2]
    · have hstep : collapseSeps (c :: d :: cs) = c :: collapseSeps (d :: cs) := by
        simp [collapseSeps, hc]
      rw [hstep, collapseSeps_fixed (d :: cs) (fun x hx hs => hm x (by simp [hx]) hs) hch.2]

theorem collapseSeps_idem (l : List Char) :
    collapseSeps (collapseSeps l) = collapseSeps l :=
  collapseSeps_fixed _ (collapseSeps_shape l).1 (collapseSeps_shape l).2

theorem toLowerList_idem : ∀ l : List Char, toLowerList (toLowerList l) = toLowerList l
  | [] => rfl
  | c :: cs => by
    simp only [toLowerList, List.map_cons]
    rw [toLower_idem]
    have := toLowerList_idem cs
    simp only [toLowerList] at this
    rw [this]

theorem collapseSeps_map_toLower : ∀ l : List Char,
    collapseSeps (toLowerList l) = toLowerList (collapseSeps l)
  | [] => rfl
  | [c] => by
    by_cases h : isSep c = true
    · simp [collapseSeps, toLowerList, isSep_toLower, h]
    · simp [collapseSeps, toLowerList, isSep_toLower, h]
  | c :: d :: cs => by
    have ih := collapseSeps_map_toLower (d :: cs)
    by_cases hc : isSep c = true
    · by_cases hd : isSep d = true
      · simpa [collapseSeps, toLowerList, isSep_toLower, hc, hd] using ih
      · simpa [collapseSeps, toLowerList, isSep_toLower, hc, hd] using ih
    · by_cases hd : isSep d = true
      · simpa [collapseSeps, toLowerList, isSep_toLower, hc, hd] using ih
      · simpa [collapseSeps, toLowerList, isSep_toLower, hc, hd] using ih

/-- C9: for every name, normalize is idempotent, its output is entirely
lower case, and the output contains no run of dash, underscore or dot
longer than one character, every separator left in it being a single
dash. -/
theorem normalize_idempotent_lowercase_collapsed (name : String) :
    normalize (normalize name) = normalize name ∧
    (∀ c ∈ (normalize name).data, Char.toLower c = c) ∧
    List.Chain' (fun a b => ¬(isSep a = true ∧ isSep b = true)) (normalize name).data ∧
    (∀ c ∈ (normalize name).data, isSep c = true → c = '-') := by
  have hdata : (normalize name).data = toLowerList (collapseSeps name.data) := rfl
  refine ⟨?_, ?_, ?_, ?_⟩
  · show (⟨toLowerList (collapseSeps (normalize name).data)⟩ : String) = normalize name
    rw [hdata, collapseSeps_map_toLower, collapseSeps_idem, toLowerList_idem]
    rfl
  · intro c hc
    rw [hdata] at hc
    obtain ⟨a, ha, rfl⟩ := List.mem_map.mp hc
    exact toLower_idem a
  · rw [hdata]
    unfold toLowerList
    rw [List.chain'_map]
    refine List.Chain'.imp ?_ (collapseSeps_shape name.data).2
    intro a b h
    simpa [isSep_toLower] using h
  · intro c hc hsep
    rw [hdata] at hc
    obtain ⟨a, ha, rfl⟩ := List.mem_map.mp hc
    rw [isSep_toLower] at hsep
    rw [(collapseSeps_shape name.data).1 a ha hsep]
    decide

/-- Witness for C9 at a concrete name. -/
theorem normalize_idempotent_lowercase_collapsed_witness :
    normalize (normalize "Foo__Bar..baz") = normalize "Foo__Bar..baz" ∧
    (∀ c ∈ (normalize "Foo__Bar..baz").data, Char.toLower c = c) ∧
    List.Chain' (fun a b => ¬(isSep a = true ∧ isSep b = true))
      (normalize "Foo__Bar..baz").data ∧
    (∀ c ∈ (normalize "Foo__Bar..baz").data, isSep c = true → c = '-') :=
  normalize_idempotent_lowercase_collapsed "Foo__Bar..baz"

/-- C4: parseMetadata fails with an InvalidMetadata error naming the
absent field exactly when the Name line or the Version line is missing;
with both present a missing homepage is tolerated and gives the empty
string, and the record is always trusted. -/
theorem parseMetadata_required_fields (s : String) :
    (findLineValue "Name: " s = none →
      parseMetadata s = .error (.invalidMetadata "Name")) ∧
    (∀ rawName, findLineValue "Name: " s = some rawName →
      findLineValue "Version: " s = none →
      parseMetadata s = .error (.invalidMetadata "Version")) ∧
    (∀ rawName rawVersion, findLineValue "Name: " s = some rawName →
      findLineValue "Version: " s = some rawVersion →
      parseMetadata s = .ok
        { Name := strTrim rawName, NormName := normalize (strTrim rawName),
          Version := strTrim rawVersion,
          Homepage := (match findHomepage s with
                       | none => ""
                       | some rawHomepage => strTrim rawHomepage),
          Trusted := true, Hash := "" } ∧
      (findHomepage s = none →
        parseMetadata s = .ok
          { Name := strTrim rawName, NormName := normalize (strTrim rawName),
            Version := strTrim rawVersion, Homepage := "",
            Trusted := true, Hash := "" })) := by
  refine ⟨?_, ?_, ?_⟩
  · intro h
    simp [parseMetadata, h]
  · intro rn h1 h2
    simp [parseMetadata, h1, h2]
  · intro rn rv h1 h2
    constructor
    · simp [parseMetadata, h1, h2]
    · intro h3
      simp [parseMetadata, h1, h2, h3]

/-- Witness for C4: a blob without a Name line, a blob without a Version
line, and a homepage-free blob with both required lines. -/
theorem parseMetadata_required_fields_witness :
    parseMetadata "Version: 1.0" = .error (.invalidMetadata "Name") ∧
    parseMetadata "Name: foo" = .error (.invalidMetadata "Version") ∧
    parseMetadata "Name: foo_bar\nVersion: 1.0" = .ok
      { Name := "foo_bar", NormName := "foo-bar", Version := "1.0",
        Homepage := "", Trusted := true, Hash := "" } := by
  refine ⟨(parseMetadata_required_fields "Version: 1.0").1 rfl,
         (parseMetadata_required_fields "Name: foo").2.1 "foo" rfl rfl, ?_⟩
  exact ((parseMetadata_required_fields "Name: foo_bar\nVersion: 1.0").2.2
    "foo_bar" "1.0" rfl rfl).2 rfl

theorem lastIndexOf_eq_none {c : Char} : ∀ {l : List Char}, c ∉ l → lastIndexOf c l = none := by
  intro l
  induction l with
  | nil => intro _; rfl
  | cons x xs ih =>
    intro h
    rw [List.mem_cons, not_or] at h
    simp only [lastIndexOf, ih h.2]
    rw [if_neg]
    simp only [beq_iff_eq]
    exact fun e => h.1 e.symm

theorem lastIndexOf_append {c : Char} : ∀ (a b : List Char), c ∉ b →
    lastIndexOf c (a ++ c :: b) = some a.length := by
  intro a
  induction a with
  | nil =>
    intro b hb
    simp only [List.nil_append, lastIndexOf, lastIndexOf_eq_none hb]
    rw [if_pos (by simp)]
    simp
  | cons x xs ih =>
    intro b hb
    simp only [List.cons_append, lastIndexOf, List.append_eq, ih b hb, List.length_cons]

/-- C6: for a generic archive whose PKG-INFO member is absent, the stem is
split at its last dash into the name part and the version part, and the
record is trusted with an empty homepage; when the stem has no dash the
extraction fails with the metadata-extraction error. -/
theorem archive_fallback_split (filename ext : String) (fn : String → ExtractResult)
    (hext : strEndsWith filename ext = true)
    (hnf : fn (stripTrail filename ext ++ "/" ++ "PKG-INFO") = .memberNotFound) :
    (∀ a b : List Char, (stripTrail filename ext).data = a ++ '-' :: b → '-' ∉ b →
      getMetadataFromArchive filename ext fn "" =
        .ok { Name := ⟨a⟩, NormName := normalize ⟨a⟩, Version := ⟨b⟩,
              Homepage := "", Trusted := true, Hash := "" }) ∧
    ('-' ∉ (stripTrail filename ext).data →
      getMetadataFromArchive filename ext fn "" = .error .metadataExtract) := by
  have hun : getMetadataFromArchive filename ext fn "" =
      (match lastIndexOf '-' (stripTrail filename ext).data with
       | none => .error .metadataExtract
       | some idx =>
         .ok { Name := ⟨(stripTrail filename ext).data.take idx⟩,
               NormName := normalize ⟨(stripTrail filename ext).data.take idx⟩,
               Version := ⟨(stripTrail filename ext).data.drop (idx + 1)⟩,
               Homepage := "", Trusted := true, Hash := "" }) := by
    simp only [getMetadataFromArchive, hext, not_true_eq_false, if_false, if_true]
    rw [hnf]
  constructor
  · intro a b hsplit hb
    rw [hun, hsplit, lastIndexOf_append a b hb]
    have ht : (a ++ '-' :: b).take a.length = a := List.take_left a ('-' :: b)
    have hd : (a ++ '-' :: b).drop (a.length + 1) = b := by
      rw [List.append_cons]
      have hlen : (a ++ ['-']).length = a.length + 1 := by simp
      rw [← hlen, List.drop_left]
    simp only [ht, hd]
  · intro hnone
    rw [hun, lastIndexOf_eq_none hnone]

/-- Witness for C6 at the concrete archive of the specification. -/
theorem archive_fallback_split_witness :
    getMetadataFromArchive "mypkg-2.3.1.tar.gz" ".tar.gz" (fun _ => .memberNotFound) "" =
      .ok { Name := "mypkg", NormName := "mypkg", Version := "2.3.1",
            Homepage := "", Trusted := true, Hash := "" } := by
  have h := (archive_fallback_split "mypkg-2.3.1.tar.gz" ".tar.gz"
      (fun _ => .memberNotFound) rfl rfl).1 "mypkg".data "2.3.1".data (by decide)
      (by decide)
  exact h

theorem fixNames_of_head (pkgs : List Metadata) (t : Metadata)
    (ht : (pkgs.filter fun p => p.Trusted).head? = some t) :
    fixNames pkgs = pkgs.map fun p => if p.Trusted then p else { p with Name := t.Name } := by
  simp [fixNames, ht]

theorem head_filter_trusted (pkgs : List Metadata) (t : Metadata)
    (ht : (pkgs.filter fun p => p.Trusted).head? = some t) :
    t ∈ pkgs ∧ t.Trusted = true := by
  have hmem : t ∈ pkgs.filter fun p => p.Trusted := by
    cases hf : pkgs.filter fun p => p.Trusted with
    | nil => rw [hf] at ht; cases ht
    | cons a l =>
      rw [hf] at ht
      injection ht with h2
      rw [← h2]
      exact List.mem_cons_self a l
  exact List.mem_filter.mp hmem

/-- C5: FixNames overwrites only the Name field of the untrusted members,
writing the name of the first trusted member, keeps every other field and
every trusted member unchanged, and leaves a group without a trusted
member entirely unchanged; on the group of the specification both members
end with name Foo. -/
theorem fixNames_frame (pkgs : List Metadata) :
    (fixNames pkgs).length = pkgs.length ∧
    ((∀ p ∈ pkgs, p.Trusted = false) → fixNames pkgs = pkgs) ∧
    (∀ t, (pkgs.filter fun p => p.Trusted).head? = some t →
      t ∈ pkgs ∧ t.Trusted = true ∧
      (∀ (i : Nat) (p : Metadata), pkgs[i]? = some p →
        (p.Trusted = true → (fixNames pkgs)[i]? = some p) ∧
        (p.Trusted = false → (fixNames pkgs)[i]? = some
          { Name := t.Name, NormName := p.NormName, Version := p.Version,
            Homepage := p.Homepage, Trusted := p.Trusted, Hash := p.Hash }))) ∧
    (fixNames
        [{ Name := "Foo", NormName := "foo", Version := "1.0", Homepage := "",
           Trusted := true, Hash := "" },
         { Name := "foo_bar", NormName := "foo-bar", Version := "1.0",
           Homepage := "", Trusted := false, Hash := "" }]).map (fun p => p.Name) =
      ["Foo", "Foo"] := by
  refine ⟨?_, ?_, ?_, by decide⟩
  · unfold fixNames
    cases (pkgs.filter fun p => p.Trusted).head? with
    | none => rfl
    | some t => simp
  · intro hall
    have hf : (pkgs.filter fun p => p.Trusted) = [] :=
      List.filter_eq_nil_iff.mpr (fun a ha => by simp [hall a ha])
    simp [fixNames, hf]
  · intro t ht
    refine ⟨(head_filter_trusted pkgs t ht).1, (head_filter_trusted pkgs t ht).2, ?_⟩
    intro i p hp
    rw [fixNames_of_head pkgs t ht]
    rw [List.getElem?_map, hp]
    constructor
    · intro htr
      simp [htr]
    · intro htr
      simp [htr]

/-- Witness for C5: on the concrete two-member group, the untrusted
member keeps every field except the overwritten name and the trusted
member is unchanged. -/
theorem fixNames_frame_witness :
    (fixNames
      [{ Name := "Foo", NormName := "foo", Version := "1.0", Homepage := "",
         Trusted := true, Hash := "" },
       { Name := "foo_bar", NormName := "foo-bar", Version := "1.0",
         Homepage := "", Trusted := false, Hash := "" }])[1]? =
      some { Name := "Foo", NormName := "foo-bar", Version := "1.0",
             Homepage := "", Trusted := false, Hash := "" } := by
  have h := ((fixNames_frame
      [{ Name := "Foo", NormName := "foo", Version := "1.0", Homepage := "",
         Trusted := true, Hash := "" },
       { Name := "foo_bar", NormName := "foo-bar", Version := "1.0",
         Homepage := "", Trusted := false, Hash := "" }]).2.2.1
      { Name := "Foo", NormName := "foo", Version := "1.0", Homepage := "",
        Trusted := true, Hash := "" } rfl).2.2 1
      { Name := "foo_bar", NormName := "foo-bar", Version := "1.0",
        Homepage := "", Trusted := false, Hash := "" } rfl
  exact h.2 rfl

/-- The parsed wheel record of the concrete heuristic case of the
specification: declared name foo_bar, homepage path /Foo/repo. -/
def wheelMetaRepo : Metadata :=
  { Name := "foo_bar", NormName := "foo-bar", Version := "1.0",
    Homepage := "https://example.com/Foo/repo", Trusted := true, Hash := "" }

/-- C2, evaluated at the failing input: the pkg revision of the heuristic
trims a trailing slash instead of the leading one, so the candidate keeps
its leading slash, is never a wheel-name start, and the name stays
foo_bar; the metadata-package revision strips the leading slash, computes
candidate Foo and adopts it as the claim describes. -/
theorem wheel_heuristic_trailing_slash_bug :
    urlPath "https://example.com/Foo/repo" = "/Foo/repo" ∧
    stripTrail (urlPath "https://example.com/Foo/repo") "/" = "/Foo/repo" ∧
    stripLead (urlPath "https://example.com/Foo/repo") "/" = "Foo/repo" ∧
    (fixWheelName "Foo-1.0-py3-none-any.whl" wheelMetaRepo).Name = "foo_bar" ∧
    (fixWheelName "Foo-1.0-py3-none-any.whl" wheelMetaRepo).Trusted = false ∧
    (getFromWheelFix "Foo-1.0-py3-none-any.whl" wheelMetaRepo).Name = "Foo" ∧
    (getFromWheelFix "Foo-1.0-py3-none-any.whl" wheelMetaRepo).Trusted = false := by
  refine ⟨by decide, by decide, by decide, by decide, by decide, by decide, by decide⟩

/-- The parsed wheel record whose homepage path /Foo has a single
segment. -/
def wheelMetaShort : Metadata :=
  { Name := "foo_bar", NormName := "foo-bar", Version := "1.0",
    Homepage := "https://example.com/Foo", Trusted := true, Hash := "" }

/-- C1 counterexample: a record freshly parsed from wheel metadata, once
rewritten by the homepage heuristic of pkg/metadata.go, violates
NormName = normalize Name: the parse gives name foo_bar with norm name
foo-bar, the heuristic then writes the candidate name without re-deriving
the normalized name. -/
theorem normname_invariant_counterexample :
    parseMetadata "Name: foo_bar\nVersion: 1.0\nHome-page: https://example.com/Foo" =
      .ok wheelMetaShort ∧
    ¬ ((fixWheelName "Foo-1.0-py3-none-any.whl" wheelMetaShort).NormName =
       normalize (fixWheelName "Foo-1.0-py3-none-any.whl" wheelMetaShort).Name) ∧
    ¬ ((getFromWheelFix "Foo-1.0-py3-none-any.whl" wheelMetaRepo).NormName =
       normalize (getFromWheelFix "Foo-1.0-py3-none-any.whl" wheelMetaRepo).Name) := by
  refine ⟨rfl, by decide, by decide⟩

theorem parseMetadata_normname (s : String) (m : Metadata)
    (h : parseMetadata s = .ok m) : m.NormName = normalize m.Name := by
  simp only [parseMetadata] at h
  split at h
  · cases h
  · split at h
    · cases h
    · cases h
      rfl

theorem getMetadataFromArchive_normname (filename ext : String)
    (fn : String → ExtractResult) (member : String) (m : Metadata)
    (h : getMetadataFromArchive filename ext fn member = .ok m) :
    m.NormName = normalize m.Name := by
  simp only [getMetadataFromArchive] at h
  split at h
  · cases h
  · split at h
    · exact parseMetadata_normname _ _ h
    · cases h
    · split at h
      · cases h
      · cases h
        rfl

theorem fixNames_normname (pkgs : List Metadata) (n : String)
    (hshare : ∀ p ∈ pkgs, p.NormName = n)
    (htrust : ∀ p ∈ pkgs, p.Trusted = true → p.NormName = normalize p.Name)
    (hex : ∃ p ∈ pkgs, p.Trusted = true) :
    ∀ q ∈ fixNames pkgs, q.NormName = normalize q.Name := by
  obtain ⟨w, hw, hwt⟩ := hex
  have hne : (pkgs.filter fun p => p.Trusted) ≠ [] := by
    intro hnil
    exact absurd hwt (by simpa using List.filter_eq_nil_iff.mp hnil w hw)
  obtain ⟨t, ts, hts⟩ : ∃ t ts, (pkgs.filter fun p => p.Trusted) = t :: ts := by
    cases hf : pkgs.filter fun p => p.Trusted with
    | nil => exact absurd hf hne
    | cons a l => exact ⟨a, l, rfl⟩
  have hhead : (pkgs.filter fun p => p.Trusted).head? = some t := by rw [hts]; rfl
  have hmem := head_filter_trusted pkgs t hhead
  intro q hq
  rw [fixNames_of_head pkgs t hhead] at hq
  obtain ⟨p, hp, rfl⟩ := List.mem_map.mp hq
  by_cases htr : p.Trusted = true
  · rw [if_pos htr]
    exact htrust p hp htr
  · rw [if_neg htr]
    show p.NormName = normalize t.Name
    rw [hshare p hp, ← hshare t hmem.1]
    exact htrust t hmem.1 hmem.2

/-- C1 amended: NormName = normalize Name holds on every record produced
by the description parser and by the archive filename fallback, and
FixNames re-establishes it on a group sharing one normalized name whose
trusted members satisfy it; the wheel homepage heuristic is the one
name writer that can break the invariant, as the counterexample shows. -/
theorem normname_invariant_amended :
    (∀ s m, parseMetadata s = .ok m → m.NormName = normalize m.Name) ∧
    (∀ filename ext fn member m,
      getMetadataFromArchive filename ext fn member = .ok m →
      m.NormName = normalize m.Name) ∧
    (∀ pkgs n, (∀ p ∈ pkgs, p.NormName = n) →
      (∀ p ∈ pkgs, p.Trusted = true → p.NormName = normalize p.Name) →
      (∃ p ∈ pkgs, p.Trusted = true) →
      ∀ q ∈ fixNames pkgs, q.NormName = normalize q.Name) :=
  ⟨parseMetadata_normname, getMetadataFromArchive_normname, fixNames_normname⟩

/-- Witness for the amended C1 at concrete inputs: a parsed record, an
archive fallback record, and a reconciled group containing the broken
wheel record next to a trusted member. -/
theorem normname_invariant_amended_witness :
    wheelMetaShort.NormName = normalize wheelMetaShort.Name ∧
    ({ Name := "mypkg", NormName := "mypkg", Version := "2.3.1", Homepage := "",
       Trusted := true, Hash := "" } : Metadata).NormName =
      normalize ({ Name := "mypkg", NormName := "mypkg", Version := "2.3.1",
                   Homepage := "", Trusted := true, Hash := "" } : Metadata).Name ∧
    (∀ q ∈ fixNames
        [{ Name := "foo_bar", NormName := "foo-bar", Version := "1.0",
           Homepage := "", Trusted := true, Hash := "" },
         { Name := "Foo", NormName := "foo-bar", Version := "1.0",
           Homepage := "", Trusted := false, Hash := "" }],
      q.NormName = normalize q.Name) := by
  refine ⟨normname_invariant_amended.1
      "Name: foo_bar\nVersion: 1.0\nHome-page: https://example.com/Foo"
      wheelMetaShort rfl, ?_, ?_⟩
  · exact normname_invariant_amended.2.1 "mypkg-2.3.1.tar.gz" ".tar.gz"
      (fun _ => .memberNotFound) "" _ archive_fallback_split_witness
  · exact normname_invariant_amended.2.2 _ "foo-bar" (by decide) (by decide)
      ⟨{ Name := "foo_bar", NormName := "foo-bar", Version := "1.0",
         Homepage := "", Trusted := true, Hash := "" }, by decide, rfl⟩

theorem fixWheelName_untrusted (whlName : String) (meta : Metadata)
    (hmis : strStartsWith whlName meta.Name = false) :
    (fixWheelName whlName meta).Trusted = false := by
  unfold fixWheelName
  rw [if_neg (by simp [hmis])]
  dsimp only
  split
  · split
    · split
      · split <;> rfl
      · rfl
    · rfl
  · rfl

theorem getFromWheelFix_untrusted (whlName : String) (meta : Metadata)
    (hmis : strStartsWith whlName meta.Name = false) :
    (getFromWheelFix whlName meta).Trusted = false := by
  unfold getFromWheelFix
  rw [if_neg (by simp [hmis])]
  dsimp only
  split
  · split
    · split
      · split <;> rfl
      · rfl
    · rfl
  · rfl

/-- C10: when the wheel file name does not start with the parsed name,
the record returned by the heuristic is untrusted in both revisions,
whether or not a candidate was adopted, and any untrusted member of a
group whose trusted part is non-empty has its name overwritten by
FixNames with the first trusted name. -/
theorem wheel_recovery_stays_untrusted (whlName : String) (meta : Metadata)
    (hmis : strStartsWith whlName meta.Name = false) :
    (fixWheelName whlName meta).Trusted = false ∧
    (getFromWheelFix whlName meta).Trusted = false ∧
    (∀ pkgs t, (pkgs.filter fun p => p.Trusted).head? = some t →
      ∀ q ∈ fixNames pkgs, q.Trusted = false → q.Name = t.Name) := by
  refine ⟨fixWheelName_untrusted whlName meta hmis,
    getFromWheelFix_untrusted whlName meta hmis, ?_⟩
  intro pkgs t ht q hq hqt
  rw [fixNames_of_head pkgs t ht] at hq
  obtain ⟨p, hp, rfl⟩ := List.mem_map.mp hq
  by_cases htr : p.Trusted = true
  · rw [if_pos htr] at hqt ⊢
    rw [htr] at hqt
    cases hqt
  · rw [if_neg htr]

/-- Witness for C10: the adopted-candidate case of the metadata revision
and the concrete pkg revision record both stay untrusted, and the
reconciler overwrites the untrusted name in a concrete group. -/
theorem wheel_recovery_stays_untrusted_witness :
    (fixWheelName "Foo-1.0-py3-none-any.whl" wheelMetaRepo).Trusted = false ∧
    (getFromWheelFix "Foo-1.0-py3-none-any.whl" wheelMetaRepo).Trusted = false := by
  have h := wheel_recovery_stays_untrusted "Foo-1.0-py3-none-any.whl" wheelMetaRepo
    (by decide)
  exact ⟨h.1, h.2.1⟩

/-- A sample extracted record for the resolver model. -/
def sampleMeta : Metadata :=
  { Name := "mypkg", NormName := "mypkg", Version := "1.0", Homepage := "",
    Trusted := true, Hash := "" }

/-- C3 counterexample: a sidecar that opens but fails to decode is not
fatal: getMetadata falls through, attempts extraction and hashing, and
returns the freshly extracted record, because the Go caller tests only
err == nil and meta != nil and drops the sidecar error. -/
theorem sidecar_error_not_fatal :
    getMetadata .decodeFailure "mypkg-1.0.tar.gz" (fun _ => .ok sampleMeta)
      (.ok "cafe") = .ok { sampleMeta with Hash := "cafe" } := rfl

/-- C3 amended: a decoded sidecar with a non-empty name is returned
unconditionally, untouched by extraction and hashing; a missing sidecar
is no cache; getMetadataFromJSON itself distinguishes a missing file from
other errors and reports the latter; but getMetadata treats every
non-success of the sidecar read, the error cases included, exactly like
the no-cache case and proceeds with extraction. -/
theorem getMetadata_cache_behaviour :
    (∀ m path g h, ¬ m.Name = "" → getMetadata (.content m) path g h = .ok m) ∧
    (getMetadataFromJSON .absent = .ok none ∧
     getMetadataFromJSON .openError = .error .ioError ∧
     getMetadataFromJSON .decodeFailure = .error .decodeError) ∧
    (∀ s path g h, (∀ m, ¬ getMetadataFromJSON s = .ok (some m)) →
      getMetadata s path g h = getMetadata .absent path g h) := by
  refine ⟨?_, ⟨rfl, rfl, rfl⟩, ?_⟩
  · intro m path g h hname
    simp [getMetadata, getMetadataFromJSON, hname]
  · intro s path g h hnc
    cases s with
    | absent => rfl
    | openError => rfl
    | decodeFailure => rfl
    | content m =>
      by_cases hname : m.Name = ""
      · simp [getMetadata, getMetadataFromJSON, hname]
      · exact absurd (by simp [getMetadataFromJSON, hname]) (hnc m)

/-- Witness for the amended C3: a cached record wins over a failing
extractor, and an unreadable sidecar behaves exactly like a missing
one. -/
theorem getMetadata_cache_behaviour_witness :
    getMetadata (.content sampleMeta) "mypkg-1.0.tar.gz" (fun _ => .error .ioError)
      (.error .ioError) = .ok sampleMeta ∧
    getMetadata .openError "mypkg-1.0.tar.gz" (fun _ => .ok sampleMeta) (.ok "cafe") =
      getMetadata .absent "mypkg-1.0.tar.gz" (fun _ => .ok sampleMeta) (.ok "cafe") := by
  refine ⟨getMetadata_cache_behaviour.1 sampleMeta "mypkg-1.0.tar.gz" _ _ (by decide),
    getMetadata_cache_behaviour.2.2 .openError "mypkg-1.0.tar.gz" _ _ ?_⟩
  intro m h
  cases h

theorem groupRunsAux_spec {α κ : Type} [DecidableEq κ] (key : α → κ) :
    ∀ (ys : List α) (k : κ) (run : List α),
      groupRunsAux key k run ys =
        (k, run.reverse ++ ys.takeWhile fun y => key y = k) ::
          groupRuns key (ys.dropWhile fun y => key y = k) := by
  intro ys
  induction ys with
  | nil => intro k run; simp [groupRunsAux, groupRuns]
  | cons y ys ih =>
    intro k run
    by_cases h : key y = k
    · have hstep : groupRunsAux key k run (y :: ys) = groupRunsAux key k (y :: run) ys := by
        simp [groupRunsAux, h]
      rw [hstep, ih]
      simp [h]
    · simp [groupRunsAux, groupRuns, h]

theorem groupRuns_cons {α κ : Type} [DecidableEq κ] (key : α → κ) (x : α) (xs : List α) :
    groupRuns key (x :: xs) =
      (key x, x :: xs.takeWhile fun y => key y = key x) ::
        groupRuns key (xs.dropWhile fun y => key y = key x) := by
  have h0 : groupRuns key (x :: xs) = groupRunsAux key (key x) [x] xs := rfl
  rw [h0, groupRunsAux_spec]
  simp

theorem groupRuns_flatten {α κ : Type} [DecidableEq κ] (key : α → κ) :
    ∀ l : List α, ((groupRuns key l).map Prod.snd).flatten = l
  | [] => by simp [groupRuns]
  | x :: xs => by
    rw [groupRuns_cons]
    simp only [List.map_cons, List.flatten_cons]
    rw [groupRuns_flatten key (xs.dropWhile fun y => key y = key x)]
    rw [List.cons_append, List.takeWhile_append_dropWhile]
termination_by l => l.length
decreasing_by
  simp only [List.length_cons]
  exact Nat.lt_succ_of_le ((List.dropWhile_sublist _).length_le)

theorem dropWhile_head_false {α : Type} (p : α → Bool) :
    ∀ (l : List α) (a : α) (t : List α), l.dropWhile p = a :: t → p a = false := by
  intro l
  induction l with
  | nil => intro a t h; cases h
  | cons x xs ih =>
    intro a t h
    rw [List.dropWhile_cons] at h
    by_cases hx : p x = true
    · rw [if_pos hx] at h
      exact ih a t h
    · rw [if_neg hx] at h
      injection h with h1 _
      rw [← h1]
      simpa using hx

theorem groupRuns_sorted {α κ : Type} [LinearOrder κ] [DecidableEq κ] (key : α → κ) :
    ∀ l : List α, l.Pairwise (fun a b => key a ≤ key b) →
      (∀ k g, (k, g) ∈ groupRuns key l →
        g ≠ [] ∧ (∀ a ∈ g, key a = k) ∧ g = l.filter fun a => key a = k) ∧
      ((groupRuns key l).map Prod.fst).Pairwise (· < ·)
  | [], _ => by simp [groupRuns]
  | x :: xs, hs => by
    have hcons := List.pairwise_cons.mp hs
    have hrest_pw : (xs.dropWhile fun y => key y = key x).Pairwise
        (fun a b => key a ≤ key b) :=
      List.Pairwise.sublist (List.dropWhile_sublist _) hcons.2
    have ih := groupRuns_sorted key (xs.dropWhile fun y => key y = key x) hrest_pw
    have hrest_gt : ∀ a ∈ xs.dropWhile (fun y => key y = key x), key x < key a := by
      cases hdw : xs.dropWhile (fun y => key y = key x) with
      | nil => intro a ha; cases ha
      | cons h t =>
        intro a ha
        have hhead := dropWhile_head_false (fun y => key y = key x) xs h t hdw
        have hne : ¬ key h = key x := by simpa using hhead
        have hhx : h ∈ xs :=
          (List.dropWhile_sublist (fun y : α => key y = key x)).subset
            (by rw [hdw]; exact List.mem_cons_self h t)
        have hlt : key x < key h := lt_of_le_of_ne (hcons.1 h hhx) (fun e => hne e.symm)
        rcases List.mem_cons.mp ha with rfl | ha2
        · exact hlt
        · have hpw : (h :: t).Pairwise (fun a b => key a ≤ key b) := by
            rw [← hdw]; exact hrest_pw
          exact lt_of_lt_of_le hlt (List.rel_of_pairwise_cons hpw ha2)
    have hft : xs.filter (fun y => key y = key x) = xs.takeWhile (fun y => key y = key x) := by
      conv_lhs => rw [← List.takeWhile_append_dropWhile (fun y => decide (key y = key x)) xs]
      rw [List.filter_append]
      have h1 : (xs.takeWhile fun y => key y = key x).filter (fun y => key y = key x) =
          xs.takeWhile fun y => key y = key x :=
        List.filter_eq_self.mpr (fun a ha =>
          @List.mem_takeWhile_imp α (fun y => decide (key y = key x)) xs a ha)
      have h2 : (xs.dropWhile fun y => key y = key x).filter (fun y => key y = key x) = [] :=
        List.filter_eq_nil_iff.mpr (fun a ha => by
          simpa using ne_of_gt (hrest_gt a ha))
      rw [h1, h2, List.append_nil]
    have hkey_gt : ∀ k g, (k, g) ∈ groupRuns key (xs.dropWhile fun y => key y = key x) →
        key x < k := by
      intro k g hmem
      obtain ⟨hne, hkeys, hfeq⟩ := ih.1 k g hmem
      obtain ⟨a, ha⟩ := List.exists_mem_of_ne_nil g hne
      have hak := hkeys a ha
      have haf : a ∈ (xs.dropWhile fun y => key y = key x).filter fun y => key y = k := by
        rw [← hfeq]; exact ha
      have := (List.mem_filter.mp haf).1
      rw [← hak]
      exact hrest_gt a this
    constructor
    · intro k g hkg
      rw [groupRuns_cons] at hkg
      rcases List.mem_cons.mp hkg with heq | hmem
      · injection heq with hk hg
        subst hk
        subst hg
        refine ⟨by simp, ?_, ?_⟩
        · intro a ha
          rcases List.mem_cons.mp ha with rfl | ha2
          · rfl
          · simpa using List.mem_takeWhile_imp ha2
        · rw [List.filter_cons_of_pos (by simp), hft]
      · obtain ⟨hne, hkeys, hfeq⟩ := ih.1 k g hmem
        have hxk : key x < k := hkey_gt k g hmem
        refine ⟨hne, hkeys, ?_⟩
        rw [List.filter_cons_of_neg (by simpa using ne_of_lt hxk)]
        conv_rhs => rw [← List.takeWhile_append_dropWhile (fun y => decide (key y = key x)) xs]
        rw [List.filter_append]
        have h3 : (xs.takeWhile fun y => key y = key x).filter (fun y => key y = k) = [] :=
          List.filter_eq_nil_iff.mpr (fun a ha => by
            have := List.mem_takeWhile_imp ha
            have hax : key a = key x := by simpa using this
            simp only [decide_eq_true_eq]
            rw [hax]
            exact ne_of_lt hxk)
        rw [h3, List.nil_append, ← hfeq]
    · rw [groupRuns_cons]
      simp only [List.map_cons]
      refine List.Pairwise.cons ?_ ih.2
      intro k2 hk2
      obtain ⟨pr, hpr, hpr2⟩ := List.mem_map.mp hk2
      rw [← hpr2]
      exact hkey_gt pr.1 pr.2 (by simpa using hpr)
termination_by l => l.length
decreasing_by
  simp only [List.length_cons]
  exact Nat.lt_succ_of_le ((List.dropWhile_sublist _).length_le)

/-- C8: GroupBy on the empty collection yields no groups; with a sort
function returning an ascending permutation of the input, every group is
non-empty and holds exactly the artifacts carrying its key, in sorted
order, the concatenation of the groups is the sorted input and the group
keys are strictly ascending; the concrete three-pair collection grouped
by first component gives the two groups of the specification. -/
theorem GroupBy_spec :
    (∀ (α κ : Type) [_inst : DecidableEq κ] (sortf : List α → List α) (key : α → κ),
      GroupBy ([] : List α) sortf key = []) ∧
    (∀ (α κ : Type) [_inst1 : LinearOrder κ] [_inst2 : DecidableEq κ] (pkgs : List α)
      (sortf : List α → List α) (key : α → κ),
      (sortf pkgs).Perm pkgs →
      (sortf pkgs).Pairwise (fun a b => key a ≤ key b) →
      (((GroupBy pkgs sortf key).map Prod.snd).flatten = sortf pkgs ∧
       (∀ k g, (k, g) ∈ GroupBy pkgs sortf key →
         g ≠ [] ∧ (∀ a ∈ g, key a = k) ∧
         g = (sortf pkgs).filter fun a => key a = k) ∧
       ((GroupBy pkgs sortf key).map Prod.fst).Pairwise (· < ·))) ∧
    GroupBy [("b", (1 : Nat)), ("a", 1), ("b", 2)]
      (fun l => l.insertionSort fun x y => strLt y.1 x.1 = false) Prod.fst =
      [("a", [("a", 1)]), ("b", [("b", 1), ("b", 2)])] := by
  refine ⟨?_, ?_, by decide⟩
  · intro α κ inst sortf key
    simp [GroupBy]
  · intro α κ inst1 inst2 pkgs sortf key hperm hsort

    by_cases hemp : pkgs.isEmpty
    · have hpk : pkgs = [] := by simpa using hemp
      subst hpk
      have hs0 : sortf [] = [] := hperm.eq_nil
      refine ⟨by simp [GroupBy, hs0], ?_, by simp [GroupBy]⟩
      intro k g hkg
      simp [GroupBy] at hkg
    · have hG : GroupBy pkgs sortf key = groupRuns key (sortf pkgs) := by
        simp [GroupBy, hemp]
      rw [hG]
      exact ⟨groupRuns_flatten key (sortf pkgs),
        fun k g hkg => (groupRuns_sorted key (sortf pkgs) hsort).1 k g hkg,
        (groupRuns_sorted key (sortf pkgs) hsort).2⟩

/-- Witness for C8: the sorted-permutation hypotheses discharged on a
concrete three-pair collection with numeric keys sorted by insertion
sort. -/
theorem GroupBy_spec_witness :
    ((GroupBy [((2 : Nat), (10 : Nat)), (1, 11), (2, 12)]
        (fun l => l.insertionSort fun x y => x.1 ≤ y.1) Prod.fst).map
        Prod.snd).flatten =
      (fun (l : List (Nat × Nat)) => l.insertionSort fun x y => x.1 ≤ y.1)
        [(2, 10), (1, 11), (2, 12)] ∧
    ((GroupBy [((2 : Nat), (10 : Nat)), (1, 11), (2, 12)]
        (fun l => l.insertionSort fun x y => x.1 ≤ y.1) Prod.fst).map
        Prod.fst).Pairwise (· < ·) := by
  have h := GroupBy_spec.2.1 (Nat × Nat) Nat [((2 : Nat), (10 : Nat)), (1, 11), (2, 12)]
    (fun l => l.insertionSort fun x y => x.1 ≤ y.1) Prod.fst (by decide) (by decide)
  exact ⟨h.1, h.2.2⟩

/-- A record carrying a given version, the operand shape of the version
comparison. -/
def verRecord (v : String) : Metadata :=
  { Name := "p", NormName := "p", Version := v, Homepage := "",
    Trusted := true, Hash := "" }

/-- C7: the comparison of SortByVersion parses both versions and compares
them structurally when both parse, falls back to the plain byte order of
the raw version text when either fails to parse, supports both
directions, and sorts the concrete version list numerically, unlike the
lexicographic string order in which 1.10 precedes 1.2. -/
theorem sortByVersion_spec :
    (∀ desc v1 v2 s1 s2, parseVersionSegs v1 = some s1 → parseVersionSegs v2 = some s2 →
      versionLess desc v1 v2 =
        (if desc then compareSegs s1 s2 == .gt else compareSegs s1 s2 == .lt)) ∧
    (∀ desc v1 v2, parseVersionSegs v1 = none ∨ parseVersionSegs v2 = none →
      versionLess desc v1 v2 = (if desc then strLt v2 v1 else strLt v1 v2)) ∧
    (sortByVersion [verRecord "1.10", verRecord "1.0", verRecord "2.0", verRecord "1.2"]
        false).map (fun p => p.Version) = ["1.0", "1.2", "1.10", "2.0"] ∧
    (sortByVersion [verRecord "1.0", verRecord "1.2", verRecord "1.10", verRecord "2.0"]
        false).map (fun p => p.Version) = ["1.0", "1.2", "1.10", "2.0"] ∧
    (sortByVersion [verRecord "1.10", verRecord "1.0", verRecord "2.0", verRecord "1.2"]
        true).map (fun p => p.Version) = ["2.0", "1.10", "1.2", "1.0"] ∧
    versionLess false "1.2" "1.10" = true ∧
    strLt "1.10" "1.2" = true := by
  refine ⟨?_, ?_, by decide, by decide, by decide, by decide, by decide⟩
  · intro desc v1 v2 s1 s2 h1 h2
    simp [versionLess, h1, h2]
  · intro desc v1 v2 h
    rcases h with h | h
    · simp [versionLess, h]
    · cases hp : parseVersionSegs v1 with
      | none => simp [versionLess, hp, h]
      | some s => simp [versionLess, hp, h]

/-- Witness for C7: a structurally compared pair and a fallback pair. -/
theorem sortByVersion_spec_witness :
    versionLess false "1.0" "2.0" =
      (if false then compareSegs [1, 0] [2, 0] == .gt
       else compareSegs [1, 0] [2, 0] == .lt) ∧
    versionLess false "abc" "1.0" =
      (if false then strLt "1.0" "abc" else strLt "abc" "1.0") :=
  ⟨sortByVersion_spec.1 false "1.0" "2.0" [1, 0] [2, 0] rfl rfl,
   sortByVersion_spec.2.1 false "abc" "1.0" (Or.inl rfl)⟩

end PyMirror
